import Mathlib

/-!
Shallow embedding of the `kmer` repository (k-mer counting) and proofs of the
specification claims.

The embedding translates the Python sources:
  * `classes/kmerreader.py`  — `KmerReader` (SequenceSource)
  * `classes/bfcounter.py`   — `BFCounter` (single-pass counter + top-K heap)
  * `classes/dsk.py`         — `DSK` (budget planner + disk-partitioned counter)
  * `kmer_single.py`         — the single-file variants (`count_kmers`,
                               `parameters`, `bf_counter`, `dsk`)

Python strings are modelled as `List Char`; Python `int` as `ℤ`/`ℕ`;
Python float arithmetic (0.7 factors, `math.ceil` of quotients, the float
division in the partition index) is modelled by exact rational/integer
arithmetic; Python dicts as insertion-ordered association lists; the
`heapq` min-heap as the list of its elements (with `heap[0]` being the
least element under the Python tuple order, which is what `heapq`
guarantees).
-/

/-- A raw line of the input file, exactly as Python's line iteration yields
it (the trailing newline character, when present, is part of the line). -/
abbrev Line : Type := List Char

/-- A token (k-mer): a Python string compared by content. -/
abbrev Tok : Type := List Char

/-- Models Python `line.startswith(m)` for the single-character markers
`'@'` and `'+'` used by `KmerReader`. -/
def pyStartsWith (c : Char) (l : Line) : Bool :=
  match l with
  | [] => false
  | d :: _ => decide (d = c)

/-- The loop body of `KmerReader._count` (kmerreader.py lines 42-59):
`line_num` is the running line index, `count` the running total.  A line
with index `0 mod 4` must start with `'@'` and a line with index
`2 mod 4` must start with `'+'`; on violation the source sets
`count = 0` and breaks, i.e. returns `0`.  A sequence line (index
`1 mod 4`) contributes `len(line) - k`, which in Python may be negative. -/
def KmerReader.countAux (k : ℕ) : ℕ → ℤ → List Line → ℤ
  | _, count, [] => count
  | ln, count, l :: rest =>
    if ln % 4 = 0 then
      (if pyStartsWith '@' l then KmerReader.countAux k (ln + 1) count rest else 0)
    else if ln % 4 = 1 then
      KmerReader.countAux k (ln + 1) (count + (l.length : ℤ) - (k : ℤ)) rest
    else if ln % 4 = 2 then
      (if pyStartsWith '+' l then KmerReader.countAux k (ln + 1) count rest else 0)
    else
      KmerReader.countAux k (ln + 1) count rest

/-- `KmerReader._count` (kmerreader.py lines 37-59). -/
def KmerReader.count (k : ℕ) (lines : List Line) : ℤ :=
  KmerReader.countAux k 0 0 lines

/-- The k-mers produced from one sequence line by `KmerReader.kmer`
(kmerreader.py lines 29-33): `kmers_in_line = len(line) - k` slices
`line[i : k + i]` for `i in range(kmers_in_line)`.  When
`len(line) - k ≤ 0` the `range` is empty (natural subtraction models
this: `range` of a non-positive Python int is empty). -/
def kmersOfLine (k : ℕ) (l : Line) : List Tok :=
  (List.range (l.length - k)).map (fun i => (l.drop i).take k)

/-- The loop of `KmerReader.kmer` (kmerreader.py lines 26-34): only lines
with index `1 mod 4` yield k-mers, in stream order. -/
def KmerReader.kmerAux (k : ℕ) : ℕ → List Line → List Tok
  | _, [] => []
  | ln, l :: rest =>
    (if ln % 4 = 1 then kmersOfLine k l else []) ++ KmerReader.kmerAux k (ln + 1) rest

/-- `KmerReader.kmer` (kmerreader.py lines 22-35): the lazy token stream,
as the finite list of tokens it yields over one full pass. -/
def KmerReader.kmer (k : ℕ) (lines : List Line) : List Tok :=
  KmerReader.kmerAux k 0 lines

/-- The loop of `count_kmers` (kmer_single.py lines 66-72): sums
`len(line) - k` over sequence lines, with no marker validation. -/
def countKmersAux (k : ℕ) : ℕ → ℤ → List Line → ℤ
  | _, acc, [] => acc
  | ln, acc, l :: rest =>
    countKmersAux k (ln + 1)
      (if ln % 4 = 1 then acc + (l.length : ℤ) - (k : ℤ) else acc) rest

/-- `count_kmers` (kmer_single.py lines 57-77). -/
def count_kmers (k : ℕ) (lines : List Line) : ℤ :=
  countKmersAux k 0 0 lines

/-- Errors raised by `KmerReader.__init__`: `FileNotFoundError` when the
path does not resolve, and the `TypeError('... is not a valid FASTQ
file.')` (the spec's FormatError) when the computed total is zero. -/
inductive ReaderErr : Type
  | fileNotFound : ReaderErr
  | formatError : ReaderErr
deriving DecidableEq

/-- `KmerReader.__init__` (kmerreader.py lines 8-20).  The file system is
modelled by an `Option`: `none` means the path does not resolve
(`os.path.isfile` is false).  On success the reader holds
`total_kmer = KmerReader.count k lines`. -/
def KmerReader.init (file : Option (List Line)) (k : ℕ) : Except ReaderErr ℤ :=
  match file with
  | none => Except.error ReaderErr.fileNotFound
  | some lines =>
    if KmerReader.count k lines = 0 then Except.error ReaderErr.formatError
    else Except.ok (KmerReader.count k lines)

/-- A file violates the FASTQ marker checks when some line of index
`0 mod 4` does not start with `'@'` or some line of index `2 mod 4`
does not start with `'+'` (kmerreader.py lines 46-55). -/
def hasViolation : ℕ → List Line → Bool
  | _, [] => false
  | ln, l :: rest =>
    (decide (ln % 4 = 0) && ! pyStartsWith '@' l)
      || (decide (ln % 4 = 2) && ! pyStartsWith '+' l)
      || hasViolation (ln + 1) rest

/-! ### Budget planner (dsk.py `DSK.__init__`, kmer_single.py `parameters`) -/

/-- Maximum number of distinct k-mers (dsk.py lines 72-75): `total_kmer`
when `4 ^ k` exceeds it, else `4 ^ k`. -/
def uni (k total : ℕ) : ℕ :=
  if 4 ^ k > total then total else 4 ^ k

/-- `b = (k + sys.getsizeof('')) * 8`, the in-memory bit size of a k-mer
(dsk.py line 69); `szEmpty` is the platform constant `sys.getsizeof('')`. -/
def bMem (k szEmpty : ℕ) : ℕ := (k + szEmpty) * 8

/-- `b_disk = (k + 1) * 8`, the on-disk bit size of a k-mer and newline
(dsk.py line 70). -/
def bDisk (k : ℕ) : ℕ := (k + 1) * 8

/-- `self._niter = math.ceil(v * b_disk / D)` (dsk.py line 76), in exact
arithmetic. -/
def DSK.niter (total k D : ℕ) : ℤ :=
  ⌈((uni k total * bDisk k : ℕ) : ℚ) / (D : ℚ)⌉

/-- `self._np = math.ceil((v * b) / (0.7 * self._niter * M))` (dsk.py
line 77), in exact arithmetic. -/
def DSK.np (total k D M szEmpty : ℕ) : ℤ :=
  ⌈((uni k total * bMem k szEmpty : ℕ) : ℚ) /
    ((7 / 10 : ℚ) * (DSK.niter total k D : ℚ) * (M : ℚ))⌉

/-- `self._capacity = v / (self._niter * self._np)` (dsk.py line 78). -/
def DSK.capacity (total k D M szEmpty : ℕ) : ℚ :=
  ((uni k total : ℕ) : ℚ) /
    ((DSK.niter total k D : ℚ) * (DSK.np total k D M szEmpty : ℚ))

/-- `self._efficient = 0.7 * M < b * v` (dsk.py line 80), returned by
`DSK.should_use` (dsk.py lines 82-88): `true` selects the partitioned
(DSK) strategy, `false` the single-pass (BFCounter) strategy. -/
def DSK.should_use (total k M szEmpty : ℕ) : Bool :=
  decide ((7 / 10 : ℚ) * (M : ℚ) < ((bMem k szEmpty : ℕ) : ℚ) * ((uni k total : ℕ) : ℚ))

/-- The Bloom filter capacity the single-pass counter actually uses:
`BloomFilter(self._reader.total_kmer, ...)` (bfcounter.py line 78), i.e.
the reader's total token count. -/
def BFCounter.capacity (total : ℕ) : ℕ := total

/-- The plan record computed by the class-based planner. -/
structure Plan : Type where
  iterations : ℤ
  partitions : ℤ
  capacity : ℚ
  useDsk : Bool
deriving DecidableEq

/-- The full plan of `DSK.__init__` (dsk.py lines 69-80). -/
def DSK.plan (total k D M szEmpty : ℕ) : Plan :=
  { iterations := DSK.niter total k D
    partitions := DSK.np total k D M szEmpty
    capacity := DSK.capacity total k D M szEmpty
    useDsk := DSK.should_use total k M szEmpty }

/-- `number_of_iterations = int(math.ceil(total_kmers * b_disk / target_disk))`
(kmer_single.py line 106): the single-file planner uses `total_kmers`
here, not the universe bound. -/
def parametersNiter (total k D : ℕ) : ℤ :=
  ⌈((total * bDisk k : ℕ) : ℚ) / (D : ℚ)⌉

/-! ### Sparse counter map (a Python dict, insertion ordered) -/

/-- A Python dict from tokens to counts, as an insertion-ordered
association list: `items()` iterates it front to back. -/
abbrev Counter : Type := List (Tok × ℕ)

/-- Dict lookup: `self._kmer_counter[kmer]` / the `in` test. -/
def lookupC : Counter → Tok → Option ℕ
  | [], _ => none
  | (u, c) :: rest, t => if u = t then some c else lookupC rest t

/-- The dict update of `BFCounter._count` (bfcounter.py lines 108-111):
if the k-mer is in the hash table increment it, else add it with
value `2`.  A new key is appended at the end (Python dicts preserve
insertion order). -/
def counterInc : Counter → Tok → Counter
  | [], t => [(t, 2)]
  | (u, c) :: rest, t =>
    if u = t then (u, c + 1) :: rest else (u, c) :: counterInc rest t

/-- The dict update of `bf_counter` (kmer_single.py lines 270, 286):
`kmer_counter = defaultdict(lambda: 1)` and `kmer_counter[kmer] += 1`,
so an absent key is created with `1 + 1`. -/
def sfCounterInc : Counter → Tok → Counter
  | [], t => [(t, 1 + 1)]
  | (u, c) :: rest, t =>
    if u = t then (u, c + 1) :: rest else (u, c) :: sfCounterInc rest t

/-! ### Single-pass counting loop (BFCounter._count / bf_counter)

The membership filter is abstract: a state type `σ` with a membership
test `mem` and an insert `ins`.  The Bloom filter of the source is one
such instance; the claims about exactness are stated at the instance
whose membership test is exact (no false positives; a Bloom filter never
has false negatives). -/

/-- One step of the counting loop (bfcounter.py lines 104-111): if the
k-mer is not in the filter, add it to the filter; else update the
counter dict. -/
def BFCounter.step {σ : Type} (mem : σ → Tok → Bool) (ins : σ → Tok → σ)
    (st : σ × Counter) (t : Tok) : σ × Counter :=
  if mem st.1 t = false then (ins st.1 t, st.2) else (st.1, counterInc st.2 t)

/-- `BFCounter._count` (bfcounter.py lines 73-122), as the fold of the
step over the token stream, starting from a fresh filter and an empty
dict. -/
def BFCounter.countRun {σ : Type} (mem : σ → Tok → Bool) (ins : σ → Tok → σ)
    (s0 : σ) (tokens : List Tok) : σ × Counter :=
  tokens.foldl (BFCounter.step mem ins) (s0, [])

/-- A membership filter with exact semantics: the state is the list of
inserted tokens and the membership test is exact.  This models a Bloom
filter that never reports a false positive (and, as always, never a
false negative). -/
def pfMem (s : List Tok) (t : Tok) : Bool := decide (t ∈ s)

/-- Insertion for the exact filter model. -/
def pfIns (s : List Tok) (t : Tok) : List Tok := t :: s

/-! ### Top-K accumulator (heapq min-heap of size N)

The heap is modelled by the list of its elements.  `heapq` guarantees
that `heap[0]` is the least element under the Python tuple order
`(count, kmer)` — numeric order on the count, then lexicographic string
order — and `heappushpop` under the guard `count > heap[0][0]` replaces
that least element with the offered record. -/

/-- A count record `(count, kmer)` as kept on the heap. -/
abbrev Rec : Type := ℕ × Tok

/-- Python lexicographic comparison of strings (as `List Char`). -/
def tokLt : Tok → Tok → Bool
  | [], [] => false
  | [], _ :: _ => true
  | _ :: _, [] => false
  | a :: as, b :: bs => decide (a < b) || (decide (a = b) && tokLt as bs)

/-- Python comparison of `(count, kmer)` tuples. -/
def recLt (x y : Rec) : Bool :=
  decide (x.1 < y.1) || (decide (x.1 = y.1) && tokLt x.2 y.2)

/-- The least element of `m :: rest` under the tuple order: this is the
element `heap[0]` of the corresponding `heapq` heap. -/
def heapMinFrom (m : Rec) : List Rec → Rec
  | [] => m
  | x :: rest => heapMinFrom (if recLt x m then x else m) rest

/-- One offer to the accumulator (bfcounter.py lines 128-131, dsk.py
lines 177-181, kmer_single.py lines 229-232): if the count exceeds the
minimum count `heap[0][0]`, `heappushpop` replaces the least element
with the offered record.  On an empty heap (N = 0) the source raises
`IndexError` at `heap[0]`; every claim below assumes N > 0, and the
model returns the empty heap in that out-of-domain case.  Removing the
popped minimum is modelled by erasing its first occurrence. -/
def eraseRec : List Rec → Rec → List Rec
  | [], _ => []
  | y :: rest, m => if y = m then rest else y :: eraseRec rest m

/-- The offer itself (see `eraseRec` above for the pop). -/
def offer (h : List Rec) (x : Rec) : List Rec :=
  match h with
  | [] => []
  | y :: rest =>
    if (heapMinFrom y rest).1 < x.1 then
      x :: eraseRec (y :: rest) (heapMinFrom y rest)
    else y :: rest

/-- The populated heap: N zero-count sentinel records
(`heap.append((0, ''))`, bfcounter.py lines 126-127), then every record
of `offers` offered in order. -/
def topkHeap (offers : List Rec) (n : ℕ) : List Rec :=
  offers.foldl offer (List.replicate n (0, ([] : Tok)))

/-- Insertion into a list sorted in non-increasing tuple order. -/
def insertDesc (x : Rec) : List Rec → List Rec
  | [] => [x]
  | y :: rest => if recLt y x then x :: y :: rest else y :: insertDesc x rest

/-- Sorting in non-increasing tuple order: `heapq.nlargest(n, heap)`
applied to the whole heap returns its elements sorted in non-increasing
tuple order; with `n` equal to the heap size this is the full descending
sort. -/
def sortDesc : List Rec → List Rec
  | [] => []
  | x :: rest => insertDesc x (sortDesc rest)

/-- `heapq.nlargest(n, heap)` (bfcounter.py line 71, dsk.py line 109,
kmer_single.py line 392). -/
def nlargest (n : ℕ) (h : List Rec) : List Rec :=
  (sortDesc h).take n

/-- The offer phase `BFCounter._heapify` (bfcounter.py lines 124-131)
followed by `heapq.nlargest` — the finalize of the top-K selector. -/
def topkFinalize (offers : List Rec) (n : ℕ) : List Rec :=
  nlargest n (topkHeap offers n)

/-- `BFCounter.nfrequent` (bfcounter.py lines 62-71): run the counting
pass, offer every `(count, kmer)` item of the counter dict to the heap,
and return the `n` largest records. -/
def BFCounter.nfrequent {σ : Type} (mem : σ → Tok → Bool) (ins : σ → Tok → σ)
    (s0 : σ) (tokens : List Tok) (n : ℕ) : List Rec :=
  topkFinalize ((BFCounter.countRun mem ins s0 tokens).2.map (fun kc => (kc.2, kc.1))) n

/-! ### The single-file `bf_counter` (kmer_single.py lines 249-313) -/

/-- Python runtime errors relevant to the model. -/
inductive PyErr : Type
  | typeError : PyErr
deriving DecidableEq

/-- One step of the `bf_counter` counting loop (kmer_single.py lines
283-286), identical to the class-based step except for the
`defaultdict` update. -/
def sfStep {σ : Type} (mem : σ → Tok → Bool) (ins : σ → Tok → σ)
    (st : σ × Counter) (t : Tok) : σ × Counter :=
  if mem st.1 t = false then (ins st.1 t, st.2) else (st.1, sfCounterInc st.2 t)

/-- The counting pass of `bf_counter`. -/
def sfCountRun {σ : Type} (mem : σ → Tok → Bool) (ins : σ → Tok → σ)
    (s0 : σ) (tokens : List Tok) : σ × Counter :=
  tokens.foldl (sfStep mem ins) (s0, [])

/-- The heap-populating loop of `bf_counter` (kmer_single.py lines
297-300): `for count, kmer in kmer_counter.items():` unpacks each
`(key, value)` item with `count` bound to the key (a string) and `kmer`
to the value (an int); the first comparison `count > heap[0][0]` then
compares a `str` with an `int` and raises `TypeError`.  Hence the loop
returns the heap unchanged when the dict is empty and raises on its
first item otherwise. -/
def sfHeapLoop : Counter → List Rec → Except PyErr (List Rec)
  | [], heap => Except.ok heap
  | _ :: _, _ => Except.error PyErr.typeError

/-- `bf_counter` (kmer_single.py lines 249-313) followed by the caller's
`heapq.nlargest(n, heap)` (kmer_single.py line 392). -/
def bf_counter {σ : Type} (mem : σ → Tok → Bool) (ins : σ → Tok → σ)
    (s0 : σ) (tokens : List Tok) (n : ℕ) : Except PyErr (List Rec) :=
  match sfHeapLoop (sfCountRun mem ins s0 tokens).2 (List.replicate n (0, ([] : Tok))) with
  | Except.error e => Except.error e
  | Except.ok heap => Except.ok (nlargest n heap)

/-! ### DSK sharding (dsk.py `_write_files_for_iteration`, lines 111-137)

`mmh3.hash` returns a signed integer; it is modelled as an abstract hash
function into `ℤ`.  Python's `%` on ints with a positive modulus is
`Int.emod`; the partition index `int((h / self._niter) % self._np)`
(float arithmetic in the source) equals, in exact arithmetic,
`(h / niter rounded toward -∞) mod np`, i.e.
`Int.emod (Int.ediv h niter) np`:  writing `q = h / niter` (exact) and
`F = Int.ediv h niter = ⌊q⌋`, one has `q mod np = q - np * ⌊q / np⌋` and
`⌊q mod np⌋ = ⌊q⌋ - np * ⌊q / np⌋ = F mod np`, and `int` truncation of
the non-negative float `q mod np` is its floor. -/

/-- The partition file contents for iteration `i`, partition `j`
(dsk.py lines 124-128): the sub-stream of tokens whose hash satisfies
`h % niter == i` and whose partition index is `j`, in stream order. -/
def DSK.fileTokens (hf : Tok → ℤ) (iters parts i j : ℕ) (tokens : List Tok) : List Tok :=
  tokens.filter (fun t =>
    decide (Int.emod (hf t) (iters : ℤ) = (i : ℤ))
      && decide (Int.emod (Int.ediv (hf t) (iters : ℤ)) (parts : ℤ) = (j : ℤ)))

/-- The concatenation of every partition file over every iteration, in
the order the iterations (dsk.py lines 102-106) and partitions visit
them. -/
def DSK.allFiles (hf : Tok → ℤ) (iters parts : ℕ) (tokens : List Tok) : List Tok :=
  (List.range iters).flatMap (fun i =>
    (List.range parts).flatMap (fun j => DSK.fileTokens hf iters parts i j tokens))

example : uni 1 5 = 4 := by decide
example : DSK.niter 5 1 33 = 2 := by
  rw [DSK.niter, Int.ceil_eq_iff]
  norm_num [uni, bDisk]
example : parametersNiter 5 1 33 = 3 := by
  rw [parametersNiter, Int.ceil_eq_iff]
  norm_num [bDisk]
example : DSK.should_use 5 1 10000 49 = false := by
  rw [DSK.should_use, decide_eq_false_iff_not]
  norm_num [bMem, uni]

example :
    BFCounter.nfrequent pfMem pfIns [] [['A','A'], ['A','A'], ['A','A']] 1
      = [(3, ['A','A'])] := by decide

example :
    BFCounter.nfrequent pfMem pfIns [] [['A','A'], ['A','A'], ['A','A']] 2
      = [(3, ['A','A']), (0, [])] := by decide

example :
    bf_counter pfMem pfIns [] [['A','A'], ['A','A'], ['A','A']] 1
      = Except.error PyErr.typeError := rfl

example :
    KmerReader.count 3 [['@','x','\n'], ['A','\n'], ['+','\n'], ['!','\n']] = -1 := by decide

example :
    KmerReader.kmer 2 [['@','x','\n'], ['A','A','A','A','\n'], ['+','\n'], ['!','!','!','!','\n']]
      = [['A','A'], ['A','A'], ['A','A']] := by decide

example :
    DSK.allFiles (fun t => (t.length : ℤ) - 2) 2 2 [['A'], ['A','B'], [], ['C','D','E']]
      = [['A','B'], [], ['C','D','E'], ['A']] := by decide

/-! ### Helper lemmas -/

/-- The universe bound of dsk.py lines 72-75 is `min (4 ^ k) total`. -/
theorem uni_eq_min (k total : ℕ) : uni k total = min (4 ^ k) total := by
  rw [uni, Nat.min_def]
  split <;> split <;> omega

/-- If the marker checks fail anywhere, `KmerReader._count` returns 0. -/
theorem countAux_eq_zero_of_violation (k : ℕ) :
    ∀ (lines : List Line) (ln : ℕ) (c : ℤ),
      hasViolation ln lines = true → KmerReader.countAux k ln c lines = 0 := by
  intro lines
  induction lines with
  | nil => intro ln c h; simp [hasViolation] at h
  | cons l rest ih =>
    intro ln c h
    rw [hasViolation] at h
    simp only [Bool.or_eq_true, Bool.and_eq_true, decide_eq_true_eq,
      Bool.not_eq_true'] at h
    rw [KmerReader.countAux]
    rcases h with (⟨h0, hs⟩ | ⟨h2, hs⟩) | hrest
    · simp [h0, hs]
    · have h0 : ¬ ln % 4 = 0 := by omega
      have h1 : ¬ ln % 4 = 1 := by omega
      simp [h0, h1, h2, hs]
    · by_cases h0 : ln % 4 = 0
      · by_cases hs : pyStartsWith '@' l
        · simp [h0, hs, ih _ _ hrest]
        · simp [h0, hs]
      · by_cases h1 : ln % 4 = 1
        · simp [h0, h1, ih _ _ hrest]
        · by_cases h2 : ln % 4 = 2
          · by_cases hs : pyStartsWith '+' l
            · simp [h0, h1, h2, hs, ih _ _ hrest]
            · simp [h0, h1, h2, hs]
          · simp [h0, h1, h2, ih _ _ hrest]

/-! ### Claim C4 -/

/-- C4: the strategy decision selects the partitioned (DSK) strategy
exactly when `0.7 * M < b_mem * universe` with
`universe = min(alphabet ^ k, total_tokens)`, and otherwise the
single-pass strategy; the decision is a pure function of its inputs, so
two evaluations on identical inputs agree. -/
theorem strategy_selection (total k D M szEmpty : ℕ) :
    ((DSK.plan total k D M szEmpty).useDsk = true ↔
      (7 / 10 : ℚ) * (M : ℚ) <
        ((bMem k szEmpty : ℕ) : ℚ) * ((min (4 ^ k) total : ℕ) : ℚ))
    ∧ DSK.plan total k D M szEmpty = DSK.plan total k D M szEmpty := by
  refine ⟨?_, rfl⟩
  show DSK.should_use total k M szEmpty = true ↔ _
  rw [DSK.should_use, uni_eq_min, decide_eq_true_eq]

/-! ### Claim C5 -/

/-- C5 (amended): the class-based planner satisfies
`iterations = ceil(universe * b_disk / D)`,
`partitions = ceil(universe * b_mem / (0.7 * iterations * M))` and
`filter_capacity = universe / (iterations * partitions)` when
partitioned, with `universe = min(alphabet ^ k, total_tokens)`; but the
single-pass counter sizes its filter with `total_tokens`
(`reader.total_kmer`, bfcounter.py line 78), not with `universe`. -/
theorem planner_formulas (total k D M szEmpty : ℕ) :
    DSK.niter total k D = ⌈((min (4 ^ k) total * bDisk k : ℕ) : ℚ) / (D : ℚ)⌉
    ∧ DSK.np total k D M szEmpty =
        ⌈((min (4 ^ k) total * bMem k szEmpty : ℕ) : ℚ) /
          ((7 / 10 : ℚ) * (DSK.niter total k D : ℚ) * (M : ℚ))⌉
    ∧ DSK.capacity total k D M szEmpty =
        ((min (4 ^ k) total : ℕ) : ℚ) /
          ((DSK.niter total k D : ℚ) * (DSK.np total k D M szEmpty : ℚ))
    ∧ BFCounter.capacity total = total := by
  refine ⟨?_, ?_, ?_, rfl⟩
  · rw [DSK.niter, uni_eq_min]
  · rw [DSK.np, uni_eq_min]
  · rw [DSK.capacity, uni_eq_min]

/-- C5 counterexample: on `total_tokens = 5`, `k = 1` (universe
`min(4, 5) = 4`), a memory budget selecting the single-pass strategy,
the filter capacity used by the single-pass counter is `5`, not the
claimed `universe = 4`; moreover the single-file planner computes
`iterations` from `total_tokens` where the claim (and dsk.py) use the
universe: at `D = 33` bits they give 3 and 2 respectively. -/
theorem planner_capacity_cex :
    DSK.should_use 5 1 10000 49 = false
    ∧ BFCounter.capacity 5 = 5
    ∧ min (4 ^ 1) 5 = 4
    ∧ (5 : ℕ) ≠ 4
    ∧ DSK.niter 5 1 33 = 2
    ∧ parametersNiter 5 1 33 = 3 := by
  refine ⟨?_, rfl, by decide, by decide, ?_, ?_⟩
  · rw [DSK.should_use, decide_eq_false_iff_not]
    norm_num [bMem, uni]
  · rw [DSK.niter, Int.ceil_eq_iff]
    norm_num [uni, bDisk]
  · rw [parametersNiter, Int.ceil_eq_iff]
    norm_num [bDisk]

/-! ### Claim C6 -/

/-- C6: the eager scan does not clamp short sequence lines at zero.  On
the 4-line record with identifier line `"@x"`, sequence line `"A"`,
separator `"+"` and quality line `"!"`, with `k = 3`, the line length
(2, counting the newline) is below `k`, and `KmerReader._count` adds
`2 - 3 = -1`: the computed total is `-1` although the token stream
the reader yields is empty (the claimed total, `max(0, 2 - 3) = 0`).
`count_kmers` of kmer_single.py computes the same `-1`. -/
theorem reader_count_short_line :
    KmerReader.count 3 [['@','x','\n'], ['A','\n'], ['+','\n'], ['!','\n']] = -1
    ∧ (KmerReader.kmer 3 [['@','x','\n'], ['A','\n'], ['+','\n'], ['!','\n']]).length = 0
    ∧ count_kmers 3 [['@','x','\n'], ['A','\n'], ['+','\n'], ['!','\n']] = -1 := by
  decide

/-! ### Claim C7 -/

/-- C7: the constructor fails with the file-not-found error when the
path does not resolve; it fails with the format error exactly when the
computed total is zero; a marker violation anywhere forces the total to
zero; and on a resolvable file with nonzero total the constructor
succeeds, holding that total. -/
theorem reader_init_spec (k : ℕ) (lines : List Line) :
    KmerReader.init none k = Except.error ReaderErr.fileNotFound
    ∧ (KmerReader.init (some lines) k = Except.error ReaderErr.formatError
        ↔ KmerReader.count k lines = 0)
    ∧ (hasViolation 0 lines = true → KmerReader.count k lines = 0)
    ∧ (KmerReader.count k lines ≠ 0
        → KmerReader.init (some lines) k = Except.ok (KmerReader.count k lines)) := by
  refine ⟨rfl, ?_, ?_, ?_⟩
  · by_cases h : KmerReader.count k lines = 0
    · simp [KmerReader.init, h]
    · simp [KmerReader.init, h]
  · intro h
    exact countAux_eq_zero_of_violation k lines 0 0 h
  · intro h
    simp [KmerReader.init, h]

/-- Witness for C7: a file whose first line lacks the `'@'` marker is
rejected with the format error. -/
theorem reader_init_spec_witness :
    KmerReader.init (some [['x','\n']]) 2 = Except.error ReaderErr.formatError :=
  (reader_init_spec 2 [['x','\n']]).2.1.mpr
    ((reader_init_spec 2 [['x','\n']]).2.2.1 (by decide))

/-! ### Claim C9 -/

/-- C9: the class-based and single-file implementations are not
equivalent.  On the token stream `"AA","AA","AA"` (one FASTQ record
whose sequence line is `"AAAA"`, `k = 2`) with `N = 1` and an exact
filter, `BFCounter.nfrequent` returns `[(3, "AA")]`, while `bf_counter`
raises `TypeError`: its heap loop `for count, kmer in
kmer_counter.items()` (kmer_single.py line 297) unpacks each item with
the key and the value swapped, and `count > heap[0][0]` compares a
string with an int. -/
theorem bf_counter_vs_class_cex :
    BFCounter.nfrequent pfMem pfIns [] [['A','A'], ['A','A'], ['A','A']] 1 = [(3, ['A','A'])]
    ∧ bf_counter pfMem pfIns [] [['A','A'], ['A','A'], ['A','A']] 1
        = Except.error PyErr.typeError :=
  ⟨by decide, rfl⟩

/-! ### Heap lemmas -/

/-- `heap[0]` is an element of the heap. -/
theorem heapMinFrom_mem : ∀ (rest : List Rec) (m : Rec), heapMinFrom m rest ∈ m :: rest := by
  intro rest
  induction rest with
  | nil => intro m; exact List.mem_singleton.mpr rfl
  | cons x rest ih =>
    intro m
    rw [heapMinFrom]
    rcases List.mem_cons.mp (ih (if recLt x m then x else m)) with h | h
    · rw [h]
      split
      · exact List.mem_cons_of_mem m (List.mem_cons_self x rest)
      · exact List.mem_cons_self m (x :: rest)
    · exact List.mem_cons_of_mem m (List.mem_cons_of_mem x h)

/-- Erasing a present record shrinks the list by one. -/
theorem eraseRec_length : ∀ (l : List Rec) (m : Rec), m ∈ l →
    (eraseRec l m).length + 1 = l.length := by
  intro l
  induction l with
  | nil => intro m h; exact absurd h (List.not_mem_nil m)
  | cons y rest ih =>
    intro m h
    rw [eraseRec]
    split
    · rfl
    case isFalse hne =>
      have hm : m ∈ rest := by
        rcases List.mem_cons.mp h with h1 | h1
        · exact absurd h1.symm hne
        · exact h1
      rw [List.length_cons, List.length_cons, ih m hm]

/-- Erasing only removes elements. -/
theorem eraseRec_subset : ∀ (l : List Rec) (m : Rec), eraseRec l m ⊆ l := by
  intro l
  induction l with
  | nil => intro m z hz; exact hz
  | cons y rest ih =>
    intro m z hz
    rw [eraseRec] at hz
    split at hz
    · exact List.mem_cons_of_mem y hz
    · rcases List.mem_cons.mp hz with h1 | h1
      · exact h1 ▸ List.mem_cons_self y rest
      · exact List.mem_cons_of_mem y (ih m h1)

/-- An offer leaves the heap size unchanged. -/
theorem offer_length (h : List Rec) (x : Rec) : (offer h x).length = h.length := by
  match h with
  | [] => rfl
  | y :: rest =>
    rw [offer]
    split
    · rw [List.length_cons, eraseRec_length (y :: rest) (heapMinFrom y rest) (heapMinFrom_mem rest y)]
    · rfl

/-- Everything on the heap after an offer was on it before, or is the
offered record. -/
theorem offer_mem (h : List Rec) (x z : Rec) (hz : z ∈ offer h x) : z ∈ h ∨ z = x := by
  match h with
  | [] => exact absurd hz (List.not_mem_nil z)
  | y :: rest =>
    rw [offer] at hz
    split at hz
    · rcases List.mem_cons.mp hz with h1 | h1
      · exact Or.inr h1
      · exact Or.inl (eraseRec_subset (y :: rest) (heapMinFrom y rest) h1)
    · exact Or.inl hz

/-- The offer fold preserves the heap size. -/
theorem foldl_offer_length : ∀ (offers : List Rec) (h : List Rec),
    (offers.foldl offer h).length = h.length := by
  intro offers
  induction offers with
  | nil => intro h; rfl
  | cons o os ih =>
    intro h
    rw [List.foldl_cons, ih, offer_length]

/-- Every record on the folded heap satisfies any property holding for
the initial heap elements and for all offered records. -/
theorem foldl_offer_inv (P : Rec → Prop) : ∀ (offers : List Rec) (h : List Rec),
    (∀ z ∈ h, P z) → (∀ o ∈ offers, P o) →
      ∀ z ∈ offers.foldl offer h, P z := by
  intro offers
  induction offers with
  | nil => intro h hh _ z hz; exact hh z hz
  | cons o os ih =>
    intro h hh ho z hz
    rw [List.foldl_cons] at hz
    refine ih (offer h o) ?_ (fun o' ho' => ho o' (List.mem_cons_of_mem o ho')) z hz
    intro z' hz'
    rcases offer_mem h o z' hz' with h1 | h1
    · exact hh z' h1
    · exact h1 ▸ ho o (List.mem_cons_self o os)

/-- Descending insertion produces a permutation. -/
theorem insertDesc_perm (x : Rec) : ∀ l : List Rec, (insertDesc x l).Perm (x :: l) := by
  intro l
  induction l with
  | nil => exact List.Perm.refl [x]
  | cons y rest ih =>
    rw [insertDesc]
    split
    · exact List.Perm.refl _
    · exact (ih.cons y).trans (List.Perm.swap x y rest)

/-- The descending sort is a permutation of its input. -/
theorem sortDesc_perm : ∀ l : List Rec, (sortDesc l).Perm l := by
  intro l
  induction l with
  | nil => exact List.Perm.refl []
  | cons x rest ih =>
    rw [sortDesc]
    exact (insertDesc_perm x (sortDesc rest)).trans (ih.cons x)

/-- A record that compares below another has a count no larger. -/
theorem recLt_true_le {a b : Rec} (h : recLt a b = true) : a.1 ≤ b.1 := by
  rw [recLt] at h
  simp only [Bool.or_eq_true, Bool.and_eq_true, decide_eq_true_eq] at h
  rcases h with h | ⟨h, _⟩
  · omega
  · omega

/-- A record that does not compare below another has a count no smaller. -/
theorem recLt_false_le {a b : Rec} (h : recLt a b = false) : b.1 ≤ a.1 := by
  rw [recLt] at h
  simp only [Bool.or_eq_false_iff, Bool.and_eq_false_iff, decide_eq_false_iff_not] at h
  omega

/-- The head of a descending insertion is the inserted record or the old
head. -/
theorem insertDesc_head (x : Rec) (l : List Rec) :
    (insertDesc x l).head? = some x ∨ (insertDesc x l).head? = l.head? := by
  cases l with
  | nil => exact Or.inl rfl
  | cons y rest =>
    rw [insertDesc]
    split
    · exact Or.inl rfl
    · exact Or.inr rfl

/-- Descending insertion preserves the non-increasing count chain. -/
theorem insertDesc_chain (x : Rec) :
    ∀ l : List Rec, List.Chain' (fun a b : Rec => b.1 ≤ a.1) l →
      List.Chain' (fun a b : Rec => b.1 ≤ a.1) (insertDesc x l) := by
  intro l
  induction l with
  | nil => intro _; simp [insertDesc]
  | cons y rest ih =>
    intro hch
    rw [List.chain'_cons'] at hch
    rw [insertDesc]
    split
    case isTrue hlt =>
      rw [List.chain'_cons']
      refine ⟨?_, List.chain'_cons'.mpr hch⟩
      intro hd hhd
      simp only [List.head?_cons, Option.mem_def, Option.some.injEq] at hhd
      exact hhd ▸ recLt_true_le hlt
    case isFalse hge =>
      rw [List.chain'_cons']
      refine ⟨?_, ih hch.2⟩
      intro hd hhd
      rcases insertDesc_head x rest with hx | hh
      · rw [hx] at hhd
        simp only [Option.mem_def, Option.some.injEq] at hhd
        exact hhd ▸ recLt_false_le (Bool.of_not_eq_true hge)
      · rw [hh] at hhd
        exact hch.1 hd hhd

/-- The descending sort is sorted non-increasingly by count. -/
theorem sortDesc_chain : ∀ l : List Rec,
    List.Chain' (fun a b : Rec => b.1 ≤ a.1) (sortDesc l) := by
  intro l
  induction l with
  | nil => exact List.chain'_nil
  | cons x rest ih => exact insertDesc_chain x (sortDesc rest) ih

/-! ### Claim C2 -/

/-- C2 (amended): for every sequence of offered records and every
`N > 0`, the finalize returns exactly `N` records, sorted non-increasing
by count, and every returned record is either one of the offered records
or a `(0, "")` sentinel; the sentinels are NOT excluded when fewer than
`N` genuine records were offered. -/
theorem topk_finalize_bounded (offers : List Rec) (n : ℕ) (hn : 0 < n) :
    (topkFinalize offers n).length = n
    ∧ List.Chain' (fun a b : Rec => b.1 ≤ a.1) (topkFinalize offers n)
    ∧ ∀ r ∈ topkFinalize offers n, r = (0, ([] : Tok)) ∨ r ∈ offers := by
  refine ⟨?_, ?_, ?_⟩
  · rw [topkFinalize, nlargest, List.length_take,
      (sortDesc_perm (topkHeap offers n)).length_eq, topkHeap,
      foldl_offer_length, List.length_replicate, Nat.min_self]
  · exact (sortDesc_chain (topkHeap offers n)).take n
  · intro r hr
    have hr2 : r ∈ topkHeap offers n :=
      ((sortDesc_perm (topkHeap offers n)).mem_iff).mp
        (List.take_subset n (sortDesc (topkHeap offers n)) hr)
    refine foldl_offer_inv (fun z => z = (0, ([] : Tok)) ∨ z ∈ offers) offers _ ?_ ?_ r hr2
    · intro z hz
      exact Or.inl (List.eq_of_mem_replicate hz)
    · intro o ho
      exact Or.inr ho

/-- Witness for C2: one genuine record, `N = 1`. -/
theorem topk_finalize_bounded_witness :
    (topkFinalize [(3, ['A','A'])] 1).length = 1 :=
  (topk_finalize_bounded [(3, ['A','A'])] 1 (by decide)).1

/-- Counterexample for C2 as stated: with `N = 2` and a single genuine
offered record, the returned list still contains the `(0, "")` sentinel
— `heapq.nlargest(n, heap)` returns all `n` heap entries and nothing
filters the sentinels out. -/
theorem topk_sentinel_in_output_cex :
    (0, ([] : Tok)) ∈ topkFinalize [(3, ['A','A'])] 2
    ∧ ¬ ((0, ([] : Tok)) ∈ [((3 : ℕ), ['A','A'])]) := by decide

/-! ### Claim C10 -/

/-- Every counter-map entry is at least 2 after an update. -/
theorem counterInc_ge2 : ∀ (m : Counter) (t : Tok),
    (∀ e ∈ m, 2 ≤ e.2) → ∀ e ∈ counterInc m t, 2 ≤ e.2 := by
  intro m
  induction m with
  | nil =>
    intro t _ e he
    rw [counterInc] at he
    rcases List.mem_singleton.mp he with h
    rw [h]
  | cons uc rest ih =>
    intro t hm e he
    rw [counterInc] at he
    split at he
    · rcases List.mem_cons.mp he with h | h
      · have := hm uc (List.mem_cons_self uc rest)
        rw [h]
        simpa using Nat.le_succ_of_le this
      · exact hm e (List.mem_cons_of_mem uc h)
    · rcases List.mem_cons.mp he with h | h
      · exact h ▸ hm uc (List.mem_cons_self uc rest)
      · exact ih t (fun e' he' => hm e' (List.mem_cons_of_mem uc he')) e h

/-- Every entry of the counter map built by the counting pass has count
at least 2. -/
theorem countRun_ge2 {σ : Type} (mem : σ → Tok → Bool) (ins : σ → Tok → σ) :
    ∀ (tokens : List Tok) (st : σ × Counter),
      (∀ e ∈ st.2, 2 ≤ e.2) →
        ∀ e ∈ (tokens.foldl (BFCounter.step mem ins) st).2, 2 ≤ e.2 := by
  intro tokens
  induction tokens with
  | nil => intro st h e he; exact h e he
  | cons x rest ih =>
    intro st h e he
    rw [List.foldl_cons] at he
    refine ih (BFCounter.step mem ins st x) ?_ e he
    intro e' he'
    rw [BFCounter.step] at he'
    split at he'
    · exact h e' he'
    · exact counterInc_ge2 st.2 x h e' he'

/-- C10: every record in the final ranked output is either the `(0, "")`
sentinel or has count at least 2 — the counter map only ever creates
entries with value 2 and increments them, so a token occurring exactly
once (and never hit by a filter false positive) cannot be reported.
Stated for any membership-filter behavior. -/
theorem nfrequent_counts_at_least_two {σ : Type} (mem : σ → Tok → Bool)
    (ins : σ → Tok → σ) (s0 : σ) (tokens : List Tok) (n : ℕ) :
    ∀ r ∈ BFCounter.nfrequent mem ins s0 tokens n,
      r = (0, ([] : Tok)) ∨ 2 ≤ r.1 := by
  intro r hr
  rw [BFCounter.nfrequent, topkFinalize, nlargest] at hr
  have hr2 := (sortDesc_perm _).mem_iff.mp (List.take_subset n _ hr)
  refine foldl_offer_inv (fun z => z = (0, ([] : Tok)) ∨ 2 ≤ z.1) _ _ ?_ ?_ r hr2
  · intro z hz
    exact Or.inl (List.eq_of_mem_replicate hz)
  · intro o ho
    rcases List.mem_map.mp ho with ⟨kc, hkc, hswap⟩
    refine Or.inr ?_
    have := countRun_ge2 mem ins tokens (s0, []) (by intro e he; cases he) kc hkc
    rw [← hswap]
    exact this

/-- Witness for C10 at the exact-filter instance and a concrete stream. -/
theorem nfrequent_counts_at_least_two_witness :
    ((3 : ℕ), ['A','A']) = (0, ([] : Tok)) ∨ 2 ≤ (3 : ℕ) :=
  nfrequent_counts_at_least_two pfMem pfIns [] [['A','A'], ['A','A'], ['A','A']] 1
    (3, ['A','A']) (by decide)

/-! ### Claim C1 -/

/-- The invariant of the counting loop under the exact filter: having
processed the tokens of `seen`, the filter contains exactly the tokens
seen so far and the counter maps exactly the tokens seen at least twice
to their number of sightings. -/
def pfInv (seen : List Tok) (st : List Tok × Counter) : Prop :=
  (∀ t : Tok, t ∈ st.1 ↔ t ∈ seen)
  ∧ (∀ t : Tok,
      lookupC st.2 t = if 2 ≤ seen.count t then some (seen.count t) else none)

/-- Updating a key reads its old value (default 1) and adds one. -/
theorem lookupC_counterInc_self : ∀ (m : Counter) (x : Tok),
    lookupC (counterInc m x) x = some ((lookupC m x).getD 1 + 1) := by
  intro m
  induction m with
  | nil => intro x; simp [counterInc, lookupC]
  | cons uc rest ih =>
    intro x
    rw [counterInc]
    split
    case isTrue h =>
      rw [lookupC, if_pos h, lookupC, if_pos h]
      rfl
    case isFalse h =>
      rw [lookupC, if_neg h, lookupC, if_neg h, ih x]

/-- Updating a key leaves other keys unchanged. -/
theorem lookupC_counterInc_other : ∀ (m : Counter) (x t : Tok), t ≠ x →
    lookupC (counterInc m x) t = lookupC m t := by
  intro m
  induction m with
  | nil =>
    intro x t ht
    show lookupC [(x, 2)] t = none
    rw [lookupC, if_neg (Ne.symm ht), lookupC]
  | cons uc rest ih =>
    intro x t ht
    rw [counterInc]
    split
    case isTrue h =>
      by_cases h2 : uc.1 = t
      · exact absurd (h2.symm.trans h) ht
      · rw [lookupC, if_neg h2, lookupC, if_neg h2]
    case isFalse h =>
      by_cases h2 : uc.1 = t
      · rw [lookupC, if_pos h2, lookupC, if_pos h2]
      · rw [lookupC, if_neg h2, lookupC, if_neg h2, ih x t ht]

/-- One step of the counting loop preserves the exact-filter invariant. -/
theorem pfStep_inv (seen : List Tok) (st : List Tok × Counter) (x : Tok)
    (h : pfInv seen st) :
    pfInv (seen ++ [x]) (BFCounter.step pfMem pfIns st x) := by
  obtain ⟨hf, hc⟩ := h
  by_cases hx : x ∈ st.1
  · have hstep : BFCounter.step pfMem pfIns st x = (st.1, counterInc st.2 x) := by
      rw [BFCounter.step, pfMem, decide_eq_true hx]
      simp
    rw [hstep]
    have hxseen : x ∈ seen := (hf x).mp hx
    constructor
    · intro t
      rw [hf t, List.mem_append, List.mem_singleton]
      constructor
      · exact Or.inl
      · rintro (h1 | rfl)
        · exact h1
        · exact hxseen
    · intro t
      by_cases ht : t = x
      · subst ht
        rw [lookupC_counterInc_self, hc t]
        have hcnt : 1 ≤ seen.count t := List.count_pos_iff.mpr hxseen
        have happ : (seen ++ [t]).count t = seen.count t + 1 := by simp
        rw [happ]
        by_cases h2 : 2 ≤ seen.count t
        · rw [if_pos h2, if_pos (by omega)]
          rfl
        · have h1 : seen.count t = 1 := by omega
          rw [if_neg h2, if_pos (by omega), h1]
          rfl
      · rw [lookupC_counterInc_other _ _ _ ht, hc t]
        have happ : (seen ++ [x]).count t = seen.count t := by simp [ht]
        rw [happ]
  · have hstep : BFCounter.step pfMem pfIns st x = (pfIns st.1 x, st.2) := by
      rw [BFCounter.step, pfMem, decide_eq_false hx]
      simp
    rw [hstep]
    have hxseen : x ∉ seen := fun h => hx ((hf x).mpr h)
    constructor
    · intro t
      show t ∈ x :: st.1 ↔ t ∈ seen ++ [x]
      rw [List.mem_cons, hf t, List.mem_append, List.mem_singleton]
      tauto
    · intro t
      by_cases ht : t = x
      · subst ht
        have hcnt : seen.count t = 0 := List.count_eq_zero.mpr hxseen
        have happ : (seen ++ [t]).count t = 1 := by simp [hcnt]
        rw [happ]
        show lookupC st.2 t = if 2 ≤ 1 then some 1 else none
        rw [hc t, hcnt]
        rfl
      · have happ : (seen ++ [x]).count t = seen.count t := by simp [ht]
        rw [happ]
        show lookupC st.2 t = _
        rw [hc t]

/-- The counting fold preserves the exact-filter invariant. -/
theorem pfCount_inv : ∀ (tokens : List Tok) (st : List Tok × Counter) (seen : List Tok),
    pfInv seen st →
      pfInv (seen ++ tokens) (tokens.foldl (BFCounter.step pfMem pfIns) st) := by
  intro tokens
  induction tokens with
  | nil => intro st seen h; simpa using h
  | cons x rest ih =>
    intro st seen h
    rw [List.foldl_cons]
    have := ih (BFCounter.step pfMem pfIns st x) (seen ++ [x]) (pfStep_inv seen st x h)
    simpa [List.append_assoc] using this

/-- C1: when the membership filter never reports a false positive
(modelled by the exact filter `pfMem`/`pfIns`), the counter map after
the counting pass contains exactly the tokens occurring at least twice
in the stream, each mapped to its exact number of occurrences; and on
the stream `"AA","AA","AA"` with `N = 1` the single reported record is
`(3, "AA")`. -/
theorem bfcounter_exact_counts :
    (∀ (tokens : List Tok) (t : Tok),
        lookupC (BFCounter.countRun pfMem pfIns [] tokens).2 t
          = if 2 ≤ tokens.count t then some (tokens.count t) else none)
    ∧ BFCounter.nfrequent pfMem pfIns [] [['A','A'], ['A','A'], ['A','A']] 1
        = [(3, ['A','A'])] := by
  constructor
  · intro tokens t
    have h0 : pfInv [] ([], []) := by
      constructor
      · intro t'; simp
      · intro t'; simp [lookupC]
    have := (pfCount_inv tokens ([], []) [] h0).2 t
    simpa using this
  · decide

/-- Witness for C1 at a concrete stream and token. -/
theorem bfcounter_exact_counts_witness :
    lookupC (BFCounter.countRun pfMem pfIns [] [['A','A'], ['A','B'], ['A','A']]).2 ['A','A']
      = some 2 :=
  (bfcounter_exact_counts.1 [['A','A'], ['A','B'], ['A','A']] ['A','A']).trans (by decide)

/-! ### Claim C3 -/

/-- Occurrences in a concatenation of mapped lists. -/
theorem count_flatMap {α β : Type} [DecidableEq α] (l : List β) (f : β → List α) (a : α) :
    (l.flatMap f).count a = (l.map (fun b => (f b).count a)).sum := by
  induction l with
  | nil => rfl
  | cons x rest ih =>
    rw [List.flatMap_cons, List.count_append, List.map_cons, List.sum_cons, ih]

/-- Occurrences in a filtered list. -/
theorem count_filter_eq {α : Type} [DecidableEq α] (p : α → Bool) (l : List α) (a : α) :
    (l.filter p).count a = if p a = true then l.count a else 0 := by
  by_cases h : p a = true
  · rw [if_pos h, List.count_filter h]
  · rw [if_neg h]
    refine List.count_eq_zero.mpr (fun hmem => ?_)
    exact h (List.of_mem_filter hmem)

/-- Exactly one summand of an indicator over `range n` is selected. -/
theorem sum_range_single_int (n : ℕ) (z : ℤ) (h0 : 0 ≤ z) (hn : z < (n : ℤ)) (c : ℕ) :
    ((List.range n).map (fun j : ℕ => if z = (j : ℤ) then c else 0)).sum = c := by
  induction n with
  | zero =>
    exfalso
    simp only [Nat.cast_zero] at hn
    omega
  | succ n ih =>
    rw [List.range_succ, List.map_append, List.sum_append, List.map_singleton,
      List.sum_singleton]
    by_cases hz : z = (n : ℤ)
    · rw [if_pos hz]
      have hzero : ((List.range n).map (fun j : ℕ => if z = (j : ℤ) then c else 0)).sum = 0 := by
        refine List.sum_eq_zero (fun x hx => ?_)
        rcases List.mem_map.mp hx with ⟨j, hj, hxeq⟩
        have hjn : j < n := List.mem_range.mp hj
        have hne : ¬ (z = (j : ℤ)) := by
          intro hcast
          rw [hz] at hcast
          have : (j : ℤ) < (n : ℤ) := by exact_mod_cast hjn
          omega
        rw [← hxeq, if_neg hne]
      rw [hzero, Nat.zero_add]
    · rw [if_neg hz, Nat.add_zero]
      have hzn : z < (n : ℤ) := by
        have hcast : ((n + 1 : ℕ) : ℤ) = (n : ℤ) + 1 := by push_cast; ring
        rw [hcast] at hn
        omega
      exact ih hzn

/-- C3: each token is assigned to exactly one (iteration, partition)
pair — it is written during iteration `i` iff `hash(token) mod
iterations = i`, into partition `floor(hash / iterations) mod
partitions` — and the concatenation of all partition files over all
iterations is a permutation (multiset equality) of the token stream:
nothing is dropped or duplicated. -/
theorem dsk_partition_complete (hf : Tok → ℤ) (iters parts : ℕ)
    (hi : 1 ≤ iters) (hp : 1 ≤ parts) (tokens : List Tok) :
    (∀ (t : Tok) (i j : ℕ),
        t ∈ DSK.fileTokens hf iters parts i j tokens ↔
          t ∈ tokens ∧ Int.emod (hf t) (iters : ℤ) = (i : ℤ)
            ∧ Int.emod (Int.ediv (hf t) (iters : ℤ)) (parts : ℤ) = (j : ℤ))
    ∧ (DSK.allFiles hf iters parts tokens).Perm tokens := by
  have hiZ : (0 : ℤ) < (iters : ℤ) := by exact_mod_cast hi
  have hpZ : (0 : ℤ) < (parts : ℤ) := by exact_mod_cast hp
  constructor
  · intro t i j
    rw [DSK.fileTokens, List.mem_filter]
    simp only [Bool.and_eq_true, decide_eq_true_eq]
  · refine List.perm_iff_count.mpr (fun a => ?_)
    rw [DSK.allFiles, count_flatMap]
    have hInn : ∀ i : ℕ,
        @List.count Tok instBEqOfDecidableEq a
          ((List.range parts).flatMap
            (fun j => DSK.fileTokens hf iters parts i j tokens))
          = if Int.emod (hf a) (iters : ℤ) = (i : ℤ)
            then @List.count Tok instBEqOfDecidableEq a tokens else 0 := by
      intro i
      rw [count_flatMap]
      by_cases hcase : Int.emod (hf a) (iters : ℤ) = (i : ℤ)
      · rw [if_pos hcase]
        have hmap : (List.range parts).map
            (fun j : ℕ => @List.count Tok instBEqOfDecidableEq a
              (DSK.fileTokens hf iters parts i j tokens))
            = (List.range parts).map
              (fun j : ℕ => if Int.emod (Int.ediv (hf a) (iters : ℤ)) (parts : ℤ) = (j : ℤ)
                then @List.count Tok instBEqOfDecidableEq a tokens else 0) := by
          refine List.map_congr_left (fun j _ => ?_)
          rw [DSK.fileTokens, count_filter_eq]
          simp [hcase]
        rw [hmap]
        exact sum_range_single_int parts _ (Int.emod_nonneg _ hpZ.ne')
          (Int.emod_lt_of_pos _ hpZ) _
      · rw [if_neg hcase]
        refine List.sum_eq_zero (fun x hx => ?_)
        rcases List.mem_map.mp hx with ⟨j, _, hxeq⟩
        rw [← hxeq, DSK.fileTokens, count_filter_eq]
        simp [hcase]
    rw [List.map_congr_left (fun i _ => hInn i)]
    exact sum_range_single_int iters _ (Int.emod_nonneg _ hiZ.ne')
      (Int.emod_lt_of_pos _ hiZ) _

/-- Witness for C3 at a concrete hash function, plan and stream. -/
theorem dsk_partition_complete_witness :
    (DSK.allFiles (fun t => (t.length : ℤ) - 2) 2 2
      [['A'], ['A','B'], [], ['C','D','E']]).Perm [['A'], ['A','B'], [], ['C','D','E']] :=
  (dsk_partition_complete (fun t => (t.length : ℤ) - 2) 2 2 (by decide) (by decide)
    [['A'], ['A','B'], [], ['C','D','E']]).2

/-! ### Claim C8 -/

/-- The universe bound is positive on nonempty streams. -/
theorem uni_pos (k total : ℕ) (h : 0 < total) : 0 < uni k total := by
  rw [uni]
  split
  · exact h
  · positivity

/-- The iteration count is at least 1 on valid inputs. -/
theorem DSK.niter_pos (total k D : ℕ) (hD : 0 < D) (htot : 0 < total) :
    1 ≤ DSK.niter total k D := by
  rw [DSK.niter]
  have hnum : (0:ℚ) < ((uni k total * bDisk k : ℕ) : ℚ) := by
    have h1 : 0 < uni k total := uni_pos k total htot
    have h2 : 0 < bDisk k := by rw [bDisk]; positivity
    exact_mod_cast Nat.mul_pos h1 h2
  have hden : (0:ℚ) < (D:ℚ) := by exact_mod_cast hD
  exact Int.ceil_pos.mpr (div_pos hnum hden)

/-- C8: for fixed total/k/memory, increasing the disk budget never
increases the iteration count; for fixed total/k/disk, increasing the
memory budget never increases the partition count. -/
theorem budget_monotone (total k szEmpty D D' M M' : ℕ)
    (hD : 0 < D) (hDD : D ≤ D') (hM : 0 < M) (hMM : M ≤ M') (htot : 0 < total) :
    DSK.niter total k D' ≤ DSK.niter total k D
    ∧ DSK.np total k D M' szEmpty ≤ DSK.np total k D M szEmpty := by
  constructor
  · apply Int.ceil_mono
    have ha : (0:ℚ) ≤ ((uni k total * bDisk k : ℕ) : ℚ) := by positivity
    have hD0 : (0:ℚ) < (D:ℚ) := by exact_mod_cast hD
    have hD'0 : (0:ℚ) < (D':ℚ) := by exact_mod_cast lt_of_lt_of_le hD hDD
    rw [div_le_div_iff hD'0 hD0]
    exact mul_le_mul_of_nonneg_left (by exact_mod_cast hDD) ha
  · apply Int.ceil_mono
    have hnit : (1:ℤ) ≤ DSK.niter total k D := DSK.niter_pos total k D hD htot
    have hι : (0:ℚ) < ((DSK.niter total k D : ℤ) : ℚ) := by
      have : (0:ℤ) < DSK.niter total k D := by omega
      exact_mod_cast this
    have ha : (0:ℚ) ≤ ((uni k total * bMem k szEmpty : ℕ) : ℚ) := by positivity
    have hM0 : (0:ℚ) < (M:ℚ) := by exact_mod_cast hM
    have hM'0 : (0:ℚ) < (M':ℚ) := by exact_mod_cast lt_of_lt_of_le hM hMM
    have hd1 : (0:ℚ) < (7/10 : ℚ) * ((DSK.niter total k D : ℤ) : ℚ) * (M:ℚ) := by positivity
    have hd2 : (0:ℚ) < (7/10 : ℚ) * ((DSK.niter total k D : ℤ) : ℚ) * (M':ℚ) := by positivity
    rw [div_le_div_iff hd2 hd1]
    refine mul_le_mul_of_nonneg_left ?_ ha
    refine mul_le_mul_of_nonneg_left ?_ (by positivity)
    exact_mod_cast hMM

/-- Witness for C8 at concrete budgets. -/
theorem budget_monotone_witness :
    DSK.niter 100 3 2000 ≤ DSK.niter 100 3 1000
    ∧ DSK.np 100 3 1000 2000 49 ≤ DSK.np 100 3 1000 1000 49 :=
  budget_monotone 100 3 49 1000 2000 1000 2000 (by decide) (by decide) (by decide)
    (by decide) (by decide)
